import Mathlib

/-!
# Verification of `mesh_segmentation/segmentation.py`

A shallow embedding of the segmentation pipeline in
`src/mesh_segmentation/segmentation.py`, over exact rational arithmetic.

Modelling conventions:
* 3-D vectors are triples of rationals; floating-point `sqrt` (used by
  `mathutils.Vector.length`, `numpy.sqrt`, `numpy.linalg.norm`) and `exp`
  (`numpy.exp`) are threaded as abstract parameters `sq exp' : ℚ → ℚ`,
  since no claim depends on their analytic properties.
* rational division by zero yields `0` (Lean's convention); this stands in
  for the NaN/Inf the floating implementation would produce — the module
  itself raises no exception in those situations (numpy emits warnings
  only), so the embedded functions are total.  The one abort the program
  can still hit on such inputs is the `check_finite=True` validation inside
  `scipy.cluster.vq.kmeans2`, a library `ValueError` raised when NaN/Inf
  reach the clustering data; that library abort is not modelled, so
  theorems about degenerate-divisor behaviour are stated on concrete
  inputs whose floating execution verifiably stays finite at the `kmeans2`
  boundary, or make only shape (value-insensitive) assertions.
* `scipy.sparse.csr_matrix((values, (rows, cols)))` sums duplicate
  `(row, col)` entries; the embedding realises an entry as the sum over
  matching triples.
* `scipy.sparse.csgraph.dijkstra` (all-pairs shortest paths, nonnegative
  weights) is embedded as Floyd–Warshall over `WithTop ℚ`, with `⊤` for
  "no path" (scipy's `inf`).
* the eigensolvers (`scipy.linalg.eigh` / `scipy.sparse.linalg.eigsh`) and
  the unseeded `kmeans++` seeding are external library calls; they appear
  as oracle parameters, constrained only by their shape contracts.
-/

set_option maxRecDepth 10000

namespace MeshSeg

/-! ## Generic list helpers (numpy primitives) -/

/-- Arithmetic mean of a list of rationals (`numpy.mean`).  The mean of the
empty list is `0/0 = 0` here (numpy would give NaN). -/
def listMean (l : List ℚ) : ℚ := l.sum / (l.length : ℚ)

/-- Index of the first minimal element (`numpy.argmin` tie-break: first
occurrence in scan order).  `argminIdx [] = 0` is junk. -/
def argminIdx : List ℚ → Nat
  | [] => 0
  | [_] => 0
  | x :: y :: xs =>
    let j := argminIdx (y :: xs)
    if x ≤ (y :: xs).getD j 0 then 0 else j + 1

/-- Maximum of a list (`numpy.max`), `0` on the empty list (junk value;
the source only applies it to nonempty selections). -/
def maxListD : List ℚ → ℚ
  | [] => 0
  | x :: xs => xs.foldl max x

/-- Dot product of two rational vectors, truncating at the shorter. -/
def dotL (a b : List ℚ) : ℚ := (List.zipWith (· * ·) a b).sum

/-! ## Mesh data model (the Blender mesh, read-only) -/

/-- A 3-D vector (`mathutils.Vector`). -/
structure Vec3 where
  x : ℚ
  y : ℚ
  z : ℚ
deriving DecidableEq, Repr

namespace Vec3

def add (a b : Vec3) : Vec3 := ⟨a.x + b.x, a.y + b.y, a.z + b.z⟩

def sub (a b : Vec3) : Vec3 := ⟨a.x - b.x, a.y - b.y, a.z - b.z⟩

def smul (q : ℚ) (a : Vec3) : Vec3 := ⟨q * a.x, q * a.y, q * a.z⟩

def dot (a b : Vec3) : ℚ := a.x * b.x + a.y * b.y + a.z * b.z

/-- `mathutils.Vector.length = sqrt (v·v)`, with the float `sqrt`
abstracted as `sq`. -/
def lengthWith (sq : ℚ → ℚ) (a : Vec3) : ℚ := sq (a.dot a)

def zero : Vec3 := ⟨0, 0, 0⟩

end Vec3

/-- A mesh polygon: vertex indices, unit normal, and its edge keys
(`face.vertices`, `face.normal`, `face.edge_keys`). -/
structure Face where
  vertices : List Nat
  normal : Vec3
  edge_keys : List (Nat × Nat)
deriving DecidableEq, Repr

/-- The mesh: vertex coordinates and polygons (`mesh.vertices`,
`mesh.polygons`). -/
structure Mesh where
  vertices : List Vec3
  polygons : List Face
deriving DecidableEq, Repr

/-- Coordinate of vertex `i` (`mesh.vertices[i].co`); junk `0` out of
range. -/
def vertexCo (mesh : Mesh) (i : Nat) : Vec3 := (mesh.vertices.getD i Vec3.zero)

/-- `_face_center`: arithmetic mean of the face's vertex coordinates. -/
def faceCenter (mesh : Mesh) (face : Face) : Vec3 :=
  Vec3.smul (1 / (face.vertices.length : ℚ))
    (face.vertices.foldl (fun acc v => acc.add (vertexCo mesh v)) Vec3.zero)

/-- `_geodesic_distance`: distance from the edge midpoint to both face
centers, summed. -/
def geodesicDistance (sq : ℚ → ℚ) (mesh : Mesh) (face1 face2 : Face)
    (edge : Nat × Nat) : ℚ :=
  let edgeCenter := Vec3.smul (1 / 2)
    ((vertexCo mesh edge.1).add (vertexCo mesh edge.2))
  (edgeCenter.sub (faceCenter mesh face1)).lengthWith sq +
    (edgeCenter.sub (faceCenter mesh face2)).lengthWith sq

/-- `_angular_distance`: `1 - cos(angle(n₁, n₂))`, scaled by `eta` when the
bend is convex (`n₁ · (c₂ - c₁) < 0`).  `cos (Vector.angle a b)` is
`a·b / (‖a‖ ‖b‖)`, with float `sqrt` abstracted as `sq`. -/
def angularDistance (sq : ℚ → ℚ) (eta : ℚ) (mesh : Mesh)
    (face1 face2 : Face) : ℚ :=
  let cosAngle := face1.normal.dot face2.normal /
    (face1.normal.lengthWith sq * face2.normal.lengthWith sq)
  let ad := 1 - cosAngle
  if face1.normal.dot ((faceCenter mesh face2).sub (faceCenter mesh face1)) < 0
  then ad * eta else ad

/-! ## Adjacency extraction (`_create_distance_matrix`, first loop) -/

/-- Insert one face index under an edge key, preserving the insertion order
of a Python `dict` (append to an existing key's list, else append a new
key at the end). -/
def addEdgeFace (m : List ((Nat × Nat) × List Nat)) (e : Nat × Nat)
    (idx : Nat) : List ((Nat × Nat) × List Nat) :=
  match m with
  | [] => [(e, [idx])]
  | (k, v) :: rest =>
    if k = e then (k, v ++ [idx]) :: rest else (k, v) :: addEdgeFace rest e idx

/-- `adj_faces_map`: map from edge key to the list of incident face
indices, built by scanning faces in order. -/
def adjFacesMap (mesh : Mesh) : List ((Nat × Nat) × List Nat) :=
  (mesh.polygons.enum).foldl
    (fun m p => p.2.edge_keys.foldl (fun m' e => addEdgeFace m' e p.1) m) []

/-- Face `i` of the mesh (`faces[i]`); junk default out of range. -/
def faceAt (mesh : Mesh) (i : Nat) : Face :=
  mesh.polygons.getD i ⟨[], Vec3.zero, []⟩

/-- One edge's contribution to the sparse-matrix assembly lists: for an
edge with exactly two incident faces `i, j` the source appends the entry
`(i, j)` and its symmetric copy `(j, i)`, both carrying the same
geodesic/angular pair; other multiplicities contribute nothing (`> 2`
only prints a warning). -/
def entryBlock (sq : ℚ → ℚ) (eta : ℚ) (mesh : Mesh)
    (p : (Nat × Nat) × List Nat) : List ((Nat × Nat) × (ℚ × ℚ)) :=
  match p.2 with
  | [i, j] =>
    let g := geodesicDistance sq mesh (faceAt mesh i) (faceAt mesh j) p.1
    let a := angularDistance sq eta mesh (faceAt mesh i) (faceAt mesh j)
    [((i, j), (g, a)), ((j, i), (g, a))]
  | _ => []

/-- The assembly lists `(row_indices, col_indices, Gval, Aval)` of the
source, fused into one list of `((row, col), (G, A))` triples, in source
iteration order. -/
def entryList (sq : ℚ → ℚ) (eta : ℚ) (mesh : Mesh) :
    List ((Nat × Nat) × (ℚ × ℚ)) :=
  (adjFacesMap mesh).flatMap (entryBlock sq eta mesh)

/-- `Gval`: the geodesic distances, one pair of equal entries per
processed edge. -/
def gVals (sq : ℚ → ℚ) (eta : ℚ) (mesh : Mesh) : List ℚ :=
  (entryList sq eta mesh).map (fun t => t.2.1)

/-- `Aval`: the angular distances, one pair of equal entries per processed
edge. -/
def aVals (sq : ℚ → ℚ) (eta : ℚ) (mesh : Mesh) : List ℚ :=
  (entryList sq eta mesh).map (fun t => t.2.2)

/-- The normalized geodesic component `Gval / numpy.mean(Gval)`. -/
def normGeo (sq : ℚ → ℚ) (eta : ℚ) (mesh : Mesh) : List ℚ :=
  (gVals sq eta mesh).map (fun x => x / listMean (gVals sq eta mesh))

/-- The normalized angular component `Aval / numpy.mean(Aval)`. -/
def normAng (sq : ℚ → ℚ) (eta : ℚ) (mesh : Mesh) : List ℚ :=
  (aVals sq eta mesh).map (fun x => x / listMean (aVals sq eta mesh))

/-- The blended weight of one `(G, A)` pair:
`delta * G / mean(Gval) + (1 - delta) * A / mean(Aval)`.  A zero mean
yields finite `0` weights here, where the floating implementation yields
NaN edge weights (which then never relax a `dijkstra` path); faithful for
nonzero means. -/
def blendValue (delta meanG meanA : ℚ) (ga : ℚ × ℚ) : ℚ :=
  delta * ga.1 / meanG + (1 - delta) * ga.2 / meanA

/-- Entry `(i, j)` of the assembled sparse distance matrix.
`scipy.sparse.csr_matrix((values, (rows, cols)))` sums the values of
duplicate `(row, col)` pairs, so the entry is the sum of the blended
values over all matching triples. -/
def distEntry (sq : ℚ → ℚ) (delta eta : ℚ) (mesh : Mesh) (i j : Nat) : ℚ :=
  (((entryList sq eta mesh).filter (fun t => t.1.1 = i ∧ t.1.2 = j)).map
    (fun t => blendValue delta (listMean (gVals sq eta mesh))
      (listMean (aVals sq eta mesh)) t.2)).sum

/-- Whether position `(i, j)` is a stored entry of the sparse matrix. -/
def hasEntry (sq : ℚ → ℚ) (eta : ℚ) (mesh : Mesh) (i j : Nat) : Bool :=
  (entryList sq eta mesh).any (fun t => t.1.1 = i ∧ t.1.2 = j)

/-- The edges of the adjacency map whose incident-face list is exactly the
pair `i, j` (in either order): the edges shared by faces `i` and `j`. -/
def sharedEdges (mesh : Mesh) (i j : Nat) : List ((Nat × Nat) × List Nat) :=
  (adjFacesMap mesh).filter (fun p => p.2 = [i, j] ∨ p.2 = [j, i])

/-- The blended weight the source computes for one edge with exactly two
incident faces, in the stored face order. -/
def edgeWeight (sq : ℚ → ℚ) (delta eta : ℚ) (mesh : Mesh)
    (p : (Nat × Nat) × List Nat) : ℚ :=
  match p.2 with
  | [a, b] =>
    blendValue delta (listMean (gVals sq eta mesh))
      (listMean (aVals sq eta mesh))
      (geodesicDistance sq mesh (faceAt mesh a) (faceAt mesh b) p.1,
        angularDistance sq eta mesh (faceAt mesh a) (faceAt mesh b))
  | _ => 0

/-- The sparse distance graph: the stored entry at `(i, j)`, or `⊤` when
no entry is stored (no direct edge). -/
def graphAt (sq : ℚ → ℚ) (delta eta : ℚ) (mesh : Mesh) (i j : Nat) :
    WithTop ℚ :=
  if hasEntry sq eta mesh i j then (distEntry sq delta eta mesh i j : ℚ)
  else ⊤

/-! ## Affinity matrix (`_create_affinity_matrix`) -/

/-- Initial distance estimate for all-pairs shortest paths: `0` on the
diagonal, the direct edge weight elsewhere. -/
def fwInit (g : Nat → Nat → WithTop ℚ) (i j : Nat) : WithTop ℚ :=
  if i = j then 0 else g i j

/-- One Floyd–Warshall relaxation round through intermediate node `m`. -/
def fwStep (d : Nat → Nat → WithTop ℚ) (m : Nat) (i j : Nat) : WithTop ℚ :=
  min (d i j) (d i m + d m j)

/-- All-pairs shortest path lengths over `l` nodes
(`scipy.sparse.csgraph.dijkstra`; `⊤` is scipy's `inf` for unreachable
pairs). -/
def apsp (l : Nat) (g : Nat → Nat → WithTop ℚ) : Nat → Nat → WithTop ℚ :=
  (List.range l).foldl fwStep (fwInit g)

/-- Shortest-path distance between faces `i` and `j`. -/
def pathDist (sq : ℚ → ℚ) (delta eta : ℚ) (mesh : Mesh) :
    Nat → Nat → WithTop ℚ :=
  apsp mesh.polygons.length (graphAt sq delta eta mesh)

/-- The dense matrix `W` after `W[inf_indices] = 0`: infinite
shortest-path distances replaced by `0`. -/
def wZero (sq : ℚ → ℚ) (delta eta : ℚ) (mesh : Mesh) (i j : Nat) : ℚ :=
  match pathDist sq delta eta mesh i j with
  | ⊤ => 0
  | (q : ℚ) => q

/-- `sigma = W.sum() / l²`: mean of the zero-patched distance matrix. -/
def sigmaOf (sq : ℚ → ℚ) (delta eta : ℚ) (mesh : Mesh) : ℚ :=
  let l := mesh.polygons.length
  (((List.range l).map (fun i =>
    ((List.range l).map (fun j => wZero sq delta eta mesh i j)).sum)).sum) /
    ((l : ℚ) ^ 2)

/-- Entry `(i, j)` of the affinity matrix: `exp (-W / (2 sigma²))`
entrywise, then previously-infinite entries re-zeroed, then the diagonal
forced to `1` (`numpy.fill_diagonal`).  The float `exp` is abstracted as
`exp'`. -/
def affinity (sq exp' : ℚ → ℚ) (delta eta : ℚ) (mesh : Mesh) (i j : Nat) :
    ℚ :=
  let den := 2 * (sigmaOf sq delta eta mesh) ^ 2
  if i = j then 1
  else if pathDist sq delta eta mesh i j = ⊤ then 0
  else exp' (-(wZero sq delta eta mesh i j) / den)

/-! ## Spectral embedding and clustering (`segment_mesh`) -/

/-- Row sum `i` of the affinity matrix (`W.sum(1)`). -/
def degreeOf (sq exp' : ℚ → ℚ) (delta eta : ℚ) (mesh : Mesh) (i : Nat) : ℚ :=
  ((List.range mesh.polygons.length).map
    (fun j => affinity sq exp' delta eta mesh i j)).sum

/-- `Dsqrt = sqrt (reciprocal (W.sum(1)))`. -/
def dsqrtOf (sq exp' : ℚ → ℚ) (delta eta : ℚ) (mesh : Mesh) (i : Nat) : ℚ :=
  sq (1 / degreeOf sq exp' delta eta mesh i)

/-- The normalized graph Laplacian
`L = ((W * Dsqrt).T * Dsqrt).T`, i.e. `L[i,j] = Dsqrt i * W[i,j] * Dsqrt j`. -/
def laplacian (sq exp' : ℚ → ℚ) (delta eta : ℚ) (mesh : Mesh) (i j : Nat) :
    ℚ :=
  affinity sq exp' delta eta mesh i j * dsqrtOf sq exp' delta eta mesh j *
    dsqrtOf sq exp' delta eta mesh i

/-- The eigensolver strategy (`ev_method` argument). -/
inductive EvMethod | dense | sparse
deriving DecidableEq, Repr

/-- The k-means initialization strategy (`kmeans_init` argument). -/
inductive KmInit | kmeanspp | greedy
deriving DecidableEq, Repr

/-- `V /= numpy.linalg.norm(V, axis=1)[:, None]`: divide each row by its
Euclidean norm (float `sqrt` of the sum of squares abstracted as `sq`).
A zero row norm yields a zero row here, where the floating implementation
yields a NaN row that the `check_finite` validation inside `kmeans2` would
reject; faithful for nonzero row norms. -/
def rowNormalize (sq : ℚ → ℚ) (V : List (List ℚ)) : List (List ℚ) :=
  V.map (fun r =>
    let nrm := sq ((r.map (fun x => x * x)).sum)
    r.map (fun x => x / nrm))

/-! ### `_initial_guess` -/

/-- Number of columns of a list-of-rows matrix (`Q.shape[1]`). -/
def nColsOf (Q : List (List ℚ)) : Nat := (Q.headD []).length

/-- `numpy.unravel_index (numpy.argmin Q, Q.shape)`: position of the first
global minimum of `Q` in row-major order. -/
def minIndices (Q : List (List ℚ)) : Nat × Nat :=
  let flat := argminIdx Q.flatten
  (flat / nColsOf Q, flat % nColsOf Q)

/-- Element `(c, j)` of `Q` (`Q[c, j]`); junk `0` out of range. -/
def qAt (Q : List (List ℚ)) (c j : Nat) : ℚ := (Q.getD c []).getD j 0

/-- Column `j` of `numpy.max (Q[chosen, :], axis=0)`: the maximum
association of face `j` to the already chosen indices. -/
def colMax (Q : List (List ℚ)) (chosen : List Nat) (j : Nat) : ℚ :=
  maxListD (chosen.map (fun c => qAt Q c j))

/-- `numpy.argmin (numpy.max (Q[chosen, :], axis=0))`: the face whose
maximum association to the chosen indices is smallest (first such). -/
def nextIndex (Q : List (List ℚ)) (chosen : List Nat) : Nat :=
  argminIdx ((List.range (nColsOf Q)).map (colMax Q chosen))

/-- `_initial_guess`: the globally minimal pair, then one greedy addition
per iteration of `range(2, k)`. -/
def initialGuess (Q : List (List ℚ)) (k : Nat) : List Nat :=
  (List.range (k - 2)).foldl (fun ch _ => ch ++ [nextIndex Q ch])
    [(minIndices Q).1, (minIndices Q).2]

/-! ### `scipy.cluster.vq.kmeans2` (Lloyd's algorithm, fixed iteration
count, `missing='warn'` keeps the previous centroid for empty clusters) -/

/-- Squared Euclidean distance between two rows.  `vq` assigns by the real
Euclidean distance; `argmin` of the true distances equals `argmin` of the
squared distances, so the embedding compares squares. -/
def sqDist (a b : List ℚ) : ℚ := (List.zipWith (fun x y => (x - y) ^ 2) a b).sum

/-- `scipy.cluster.vq.vq`: each observation's nearest-centroid index. -/
def vqAssign (data codebook : List (List ℚ)) : List Nat :=
  data.map (fun x => argminIdx (codebook.map (fun c => sqDist x c)))

/-- One centroid update: the mean of each cluster's members, keeping the
old centroid for an empty cluster. -/
def updateCodebook (data codebook : List (List ℚ)) (labels : List Nat) :
    List (List ℚ) :=
  (List.range codebook.length).map (fun c =>
    let members := ((data.zip labels).filter (fun p => p.2 = c)).map Prod.fst
    match members with
    | [] => codebook.getD c []
    | r :: rest =>
      (rest.foldl (fun acc row => List.zipWith (· + ·) acc row) r).map
        (fun x => x / ((members.length : ℚ))))

/-- `kmeans2(data, codebook, iter=n)`: `n` assign/update rounds, returning
the labels of the final assignment (computed against the codebook before
its last update, as in scipy's `_kmeans`).  The default
`check_finite=True` entry validation of `kmeans2`, which raises
`ValueError` on non-finite data, is not modelled: this embedding covers
the finite-data regime. -/
def kmeansLoop (data : List (List ℚ)) : List (List ℚ) → Nat → List Nat
  | _, 0 => []
  | cb, 1 => vqAssign data cb
  | cb, n + 2 =>
    kmeansLoop data (updateCodebook data cb (vqAssign data cb)) (n + 1)

/-! ### `segment_mesh` -/

/-- The clustering pipeline of `segment_mesh` after the coefficients are
set: affinity matrix, Laplacian, eigenvectors, row normalization, then
k-means with the selected initialization.  `eig` is the eigensolver oracle
(`scipy.linalg.eigh` restricted to the top-`k` eigenpairs, or
`scipy.sparse.linalg.eigsh`), whose contract is to return the `l × k`
eigenvector matrix; `ppInit` is the (unseeded, hence arbitrary) centroid
seeding drawn by `minit='++'`. -/
def segmentCore (sq exp' : ℚ → ℚ)
    (eig : EvMethod → (Nat → Nat → ℚ) → Nat → List (List ℚ))
    (ppInit : List (List ℚ)) (mesh : Mesh) (k : Nat) (delta eta : ℚ)
    (evMethod : EvMethod) (kmInit : KmInit) : List Nat :=
  let V := eig evMethod (laplacian sq exp' delta eta mesh) k
  let Vn := rowNormalize sq V
  match kmInit with
  | .kmeanspp => kmeansLoop Vn ppInit 50
  | .greedy =>
    let Q := Vn.map (fun r => Vn.map (fun r' => dotL r r'))
    let chosen := initialGuess Q k
    kmeansLoop Vn (chosen.map (fun c => Vn.getD c [])) 50

/-- The module-level mutable state: the global `delta` and `eta`
variables, `None` before any call. -/
abbrev ModState := Option ℚ × Option ℚ

/-- Read a global coefficient (`None` would crash the arithmetic in
Python; `0` is the junk stand-in, never reached after assignment). -/
def readCoeff : Option ℚ → ℚ
  | some q => q
  | none => 0

/-- `segment_mesh` with the global-state protocol made explicit: the call
first assigns `delta, eta = coefficients` to the module state, then runs
the pipeline reading the coefficients back from the updated state, and
returns the final module state together with the labels. -/
def segmentMeshS (sq exp' : ℚ → ℚ)
    (eig : EvMethod → (Nat → Nat → ℚ) → Nat → List (List ℚ))
    (ppInit : List (List ℚ)) (st : ModState) (mesh : Mesh) (k : Nat)
    (coefficients : ℚ × ℚ) (evMethod : EvMethod) (kmInit : KmInit) :
    ModState × List Nat :=
  let st' : ModState := (some coefficients.1, some coefficients.2)
  (st', segmentCore sq exp' eig ppInit mesh k (readCoeff st'.1)
    (readCoeff st'.2) evMethod kmInit)

/-- The sequence of invocations of the `action` callback during one
`segment_mesh` call: the source calls `action(mesh, k, idx)` exactly once
at the end when `action` is truthy, and never otherwise.  Each invocation
is recorded as the `(k, idx)` it delivers. -/
def callbackTrace (sq exp' : ℚ → ℚ)
    (eig : EvMethod → (Nat → Nat → ℚ) → Nat → List (List ℚ))
    (ppInit : List (List ℚ)) (mesh : Mesh) (k : Nat)
    (coefficients : ℚ × ℚ) (hasAction : Bool) (evMethod : EvMethod)
    (kmInit : KmInit) : List (Nat × List Nat) :=
  if hasAction then
    [(k, (segmentMeshS sq exp' eig ppInit (none, none) mesh k coefficients
      evMethod kmInit).2)]
  else []

/-! ## Concrete test inputs -/

/-- A small well-formed mesh: two triangles sharing the edge `(1, 2)`,
with distinct normals. -/
def Mwit : Mesh :=
  { vertices := [⟨0, 0, 0⟩, ⟨0, 2, 0⟩, ⟨0, 0, 2⟩, ⟨3, 0, 0⟩]
  , polygons :=
    [ ⟨[0, 1, 2], ⟨1, 0, 0⟩, [(0, 1), (1, 2), (0, 2)]⟩
    , ⟨[1, 2, 3], ⟨0, 1, 0⟩, [(1, 2), (2, 3), (1, 3)]⟩ ] }

/-- A degenerate mesh: every vertex at the origin, so every geodesic
distance is `0` and the geodesic mean vanishes. -/
def Mdeg : Mesh :=
  { vertices := [⟨0, 0, 0⟩, ⟨0, 0, 0⟩, ⟨0, 0, 0⟩]
  , polygons :=
    [ ⟨[0, 1, 2], ⟨0, 0, 1⟩, [(0, 1), (1, 2), (0, 2)]⟩
    , ⟨[0, 1, 2], ⟨0, 0, 1⟩, [(1, 2), (0, 2), (0, 1)]⟩ ] }

/-- A mesh in which faces `0` and `1` share the two edges `(0, 1)` and
`(1, 2)`. -/
def Mdup : Mesh :=
  { vertices := [⟨0, 0, 0⟩, ⟨1, 0, 0⟩, ⟨1, 1, 0⟩]
  , polygons :=
    [ ⟨[0, 1, 2], ⟨0, 0, 1⟩, [(0, 1), (1, 2)]⟩
    , ⟨[0, 1, 2], ⟨0, 0, 1⟩, [(0, 1), (1, 2)]⟩ ] }

/-- A concrete eigensolver oracle satisfying the shape contract for a
2-face mesh with `k = 2`: it returns a fixed `2 × 2` eigenvector matrix. -/
def eigWit : EvMethod → (Nat → Nat → ℚ) → Nat → List (List ℚ) :=
  fun _ _ _ => [[1, 0], [0, 1]]

/-- A concrete association matrix with unit diagonal and all off-diagonal
associations strictly below `1`. -/
def Qwit : List (List ℚ) := [[1, 0, 1/2], [0, 1, 1/4], [1/2, 1/4, 1]]

/-- A concrete `3 × 3` association matrix. -/
def Qc : List (List ℚ) := [[1, 0, 1], [0, 1, 1], [1, 1, 1]]

/-! ## Generic lemmas about the numpy primitives -/

theorem argminIdx_lt : ∀ (l : List ℚ), l ≠ [] → argminIdx l < l.length
  | [], h => absurd rfl h
  | [_], _ => Nat.zero_lt_one
  | x :: y :: xs, _ => by
    rw [argminIdx]
    split
    · simp
    · have := argminIdx_lt (y :: xs) (by simp)
      simpa [Nat.succ_lt_succ_iff] using this

theorem argminIdx_getD_le :
    ∀ (l : List ℚ) (i : Nat), i < l.length →
      l.getD (argminIdx l) 0 ≤ l.getD i 0
  | [], _, h => by simp at h
  | [x], i, h => by
    have hi : i = 0 := Nat.lt_one_iff.mp (by simpa using h)
    subst hi
    simp [argminIdx]
  | x :: y :: xs, i, h => by
    rw [argminIdx]
    split
    case isTrue hle =>
      match i with
      | 0 => simp
      | i + 1 =>
        have hi : i < (y :: xs).length := by simpa using h
        have := argminIdx_getD_le (y :: xs) i hi
        calc (x :: y :: xs).getD 0 0 = x := rfl
          _ ≤ (y :: xs).getD (argminIdx (y :: xs)) 0 := hle
          _ ≤ (y :: xs).getD i 0 := this
          _ = (x :: y :: xs).getD (i + 1) 0 := rfl
    case isFalse hlt =>
      match i with
      | 0 =>
        have : (y :: xs).getD (argminIdx (y :: xs)) 0 ≤ x := le_of_lt (by linarith [lt_of_not_le hlt])
        simpa using this
      | i + 1 =>
        have hi : i < (y :: xs).length := by simpa using h
        exact argminIdx_getD_le (y :: xs) i hi

theorem foldl_max_init_le : ∀ (xs : List ℚ) (a : ℚ), a ≤ xs.foldl max a
  | [], _ => le_refl _
  | x :: xs, a => le_trans (le_max_left a x) (foldl_max_init_le xs (max a x))

theorem foldl_max_mem_le :
    ∀ (xs : List ℚ) (a x : ℚ), x ∈ xs → x ≤ xs.foldl max a
  | [], _, _, h => absurd h (List.not_mem_nil _)
  | y :: xs, a, x, h => by
    rcases List.mem_cons.mp h with rfl | h
    · exact le_trans (le_max_right a x) (foldl_max_init_le xs (max a x))
    · exact foldl_max_mem_le xs (max a y) x h

theorem foldl_max_lt :
    ∀ (xs : List ℚ) (a c : ℚ), a < c → (∀ x ∈ xs, x < c) → xs.foldl max a < c
  | [], _, _, ha, _ => ha
  | x :: xs, a, c, ha, h => by
    refine foldl_max_lt xs (max a x) c ?_ (fun y hy => h y (List.mem_cons_of_mem _ hy))
    exact max_lt ha (h x (List.mem_cons_self _ _))

theorem le_maxListD {l : List ℚ} {x : ℚ} (h : x ∈ l) : x ≤ maxListD l := by
  match l with
  | [] => exact absurd h (List.not_mem_nil _)
  | y :: ys =>
    rcases List.mem_cons.mp h with rfl | h
    · exact foldl_max_init_le ys x
    · exact foldl_max_mem_le ys y x h

theorem maxListD_lt {l : List ℚ} {c : ℚ} (hne : l ≠ []) (h : ∀ x ∈ l, x < c) :
    maxListD l < c := by
  match l with
  | [] => exact absurd rfl hne
  | y :: ys =>
    exact foldl_max_lt ys y c (h y (List.mem_cons_self _ _))
      (fun x hx => h x (List.mem_cons_of_mem _ hx))

theorem sum_map_div (l : List ℚ) (c : ℚ) :
    (l.map (fun x => x / c)).sum = l.sum / c := by
  induction l with
  | nil => simp
  | cons x xs ih => simp [ih, add_div]

/-- Dividing a list by its own (nonzero) mean yields a list of mean `1`. -/
theorem listMean_self_normalized (l : List ℚ) (hne : l ≠ [])
    (hm : listMean l ≠ 0) :
    listMean (l.map (fun x => x / listMean l)) = 1 := by
  have hlen : (l.length : ℚ) ≠ 0 := by
    simpa using List.length_pos.mpr hne |>.ne'
  unfold listMean at *
  rw [sum_map_div, List.length_map]
  rw [div_right_comm]
  exact div_self hm

theorem getD_map_range (f : Nat → ℚ) {n j : Nat} (hj : j < n) :
    ((List.range n).map f).getD j 0 = f j := by
  rw [List.getD_eq_getElem?_getD, List.getElem?_map, List.getElem?_range hj]
  rfl

theorem flatten_length_uniform {n : Nat} :
    ∀ (Q : List (List ℚ)), (∀ r ∈ Q, r.length = n) →
      Q.flatten.length = Q.length * n
  | [], _ => by simp
  | r :: Q, h => by
    have hr : r.length = n := h r (List.mem_cons_self _ _)
    have ih := flatten_length_uniform Q (fun s hs => h s (List.mem_cons_of_mem _ hs))
    simp only [List.flatten_cons, List.length_append, List.length_cons, ih, hr]
    ring

theorem flatten_getD_uniform {n : Nat} :
    ∀ (Q : List (List ℚ)), (∀ r ∈ Q, r.length = n) →
      ∀ i j, i < Q.length → j < n →
        Q.flatten.getD (i * n + j) 0 = qAt Q i j
  | [], _, i, _, hi, _ => by simp at hi
  | r :: Q, h, 0, j, _, hj => by
    have hr : r.length = n := h r (List.mem_cons_self _ _)
    have hjr : j < r.length := hr ▸ hj
    simp only [List.flatten_cons, Nat.zero_mul, Nat.zero_add]
    rw [List.getD_append _ _ _ _ hjr]
    rfl
  | r :: Q, h, i + 1, j, hi, hj => by
    have hr : r.length = n := h r (List.mem_cons_self _ _)
    have ih := flatten_getD_uniform Q
      (fun s hs => h s (List.mem_cons_of_mem _ hs)) i j
      (by simpa using hi) hj
    have harith : (i + 1) * n + j = r.length + (i * n + j) := by
      rw [hr]; ring
    simp only [List.flatten_cons, harith]
    rw [List.getD_append_right _ _ _ _ (Nat.le_add_right _ _), Nat.add_sub_cancel_left]
    exact ih

theorem exists_not_mem_of_length_lt {ch : List Nat} {n : Nat}
    (hnd : ch.Nodup) (hlt : ch.length < n) :
    ∃ j, j < n ∧ j ∉ ch := by
  by_contra hcon
  push_neg at hcon
  have hsub : Finset.range n ⊆ ch.toFinset := by
    intro j hj
    exact List.mem_toFinset.mpr (hcon j (Finset.mem_range.mp hj))
  have hcard := Finset.card_le_card hsub
  rw [Finset.card_range, List.toFinset_card_of_nodup hnd] at hcard
  omega

theorem prefix_getD_eq {l₁ l₂ : List Nat} (h : l₁ <+: l₂) {i : Nat}
    (hi : i < l₁.length) : l₂.getD i 0 = l₁.getD i 0 := by
  obtain ⟨t, rfl⟩ := h
  exact List.getD_append _ _ _ _ hi

/-! ## Symmetry of the sparse distance matrix and of the affinity matrix -/

theorem filter_map_sum_pair {α : Type} (p : α → Bool) (f : α → ℚ) (t1 t2 : α) :
    (([t1, t2].filter p).map f).sum =
      (if p t1 then f t1 else 0) + (if p t2 then f t2 else 0) := by
  by_cases h1 : p t1 <;> by_cases h2 : p t2 <;> simp [List.filter, h1, h2]

/-- The two triples appended for one edge contribute the same total to
position `(i, j)` as to position `(j, i)`. -/
theorem block_filter_sum_symm (f : ℚ × ℚ → ℚ) (a b i j : Nat) (g : ℚ × ℚ) :
    (([((a, b), g), ((b, a), g)].filter
        (fun t => t.1.1 = i ∧ t.1.2 = j)).map (fun t => f t.2)).sum =
      (([((a, b), g), ((b, a), g)].filter
        (fun t => t.1.1 = j ∧ t.1.2 = i)).map (fun t => f t.2)).sum := by
  rw [filter_map_sum_pair, filter_map_sum_pair]
  simp only [decide_eq_true_eq]
  rw [add_comm]
  exact congrArg₂ (· + ·) (if_congr and_comm rfl rfl) (if_congr and_comm rfl rfl)

theorem entryBlock_shape (sq : ℚ → ℚ) (eta : ℚ) (mesh : Mesh)
    (p : (Nat × Nat) × List Nat) :
    entryBlock sq eta mesh p = [] ∨
      ∃ a b g, entryBlock sq eta mesh p = [((a, b), g), ((b, a), g)] := by
  rcases p with ⟨e, adj⟩
  match adj with
  | [] => exact Or.inl rfl
  | [_] => exact Or.inl rfl
  | [a, b] => exact Or.inr ⟨a, b, _, rfl⟩
  | _ :: _ :: _ :: _ => exact Or.inl rfl

theorem flatMap_filter_sum_symm (sq : ℚ → ℚ) (eta : ℚ) (mesh : Mesh)
    (f : ℚ × ℚ → ℚ) (i j : Nat) :
    ∀ L : List ((Nat × Nat) × List Nat),
      (((L.flatMap (entryBlock sq eta mesh)).filter
          (fun t => t.1.1 = i ∧ t.1.2 = j)).map (fun t => f t.2)).sum =
        (((L.flatMap (entryBlock sq eta mesh)).filter
          (fun t => t.1.1 = j ∧ t.1.2 = i)).map (fun t => f t.2)).sum
  | [] => rfl
  | p :: L => by
    have ih := flatMap_filter_sum_symm sq eta mesh f i j L
    simp only [List.flatMap_cons, List.filter_append, List.map_append,
      List.sum_append]
    rw [ih]
    rcases entryBlock_shape sq eta mesh p with h | ⟨a, b, g, h⟩
    · rw [h]; simp
    · rw [h, block_filter_sum_symm]

theorem distEntry_symm (sq : ℚ → ℚ) (delta eta : ℚ) (mesh : Mesh)
    (i j : Nat) :
    distEntry sq delta eta mesh i j = distEntry sq delta eta mesh j i :=
  flatMap_filter_sum_symm sq eta mesh _ i j (adjFacesMap mesh)

theorem block_any_symm (a b i j : Nat) (g : ℚ × ℚ) :
    ([((a, b), g), ((b, a), g)].any (fun t => t.1.1 = i ∧ t.1.2 = j)) =
      ([((a, b), g), ((b, a), g)].any (fun t => t.1.1 = j ∧ t.1.2 = i)) := by
  simp only [List.any_cons, List.any_nil, Bool.or_false]
  rw [Bool.or_comm]
  exact congrArg₂ (· || ·) (decide_eq_decide.mpr and_comm)
    (decide_eq_decide.mpr and_comm)

theorem flatMap_any_symm (sq : ℚ → ℚ) (eta : ℚ) (mesh : Mesh) (i j : Nat) :
    ∀ L : List ((Nat × Nat) × List Nat),
      ((L.flatMap (entryBlock sq eta mesh)).any
          (fun t => t.1.1 = i ∧ t.1.2 = j)) =
        ((L.flatMap (entryBlock sq eta mesh)).any
          (fun t => t.1.1 = j ∧ t.1.2 = i))
  | [] => rfl
  | p :: L => by
    have ih := flatMap_any_symm sq eta mesh i j L
    simp only [List.flatMap_cons, List.any_append]
    rw [ih]
    rcases entryBlock_shape sq eta mesh p with h | ⟨a, b, g, h⟩
    · rw [h]; simp
    · rw [h, block_any_symm]

theorem hasEntry_symm (sq : ℚ → ℚ) (eta : ℚ) (mesh : Mesh) (i j : Nat) :
    hasEntry sq eta mesh i j = hasEntry sq eta mesh j i :=
  flatMap_any_symm sq eta mesh i j (adjFacesMap mesh)

theorem graphAt_symm (sq : ℚ → ℚ) (delta eta : ℚ) (mesh : Mesh) (i j : Nat) :
    graphAt sq delta eta mesh i j = graphAt sq delta eta mesh j i := by
  unfold graphAt
  rw [hasEntry_symm, distEntry_symm]

theorem fwInit_symm (g : Nat → Nat → WithTop ℚ)
    (hg : ∀ i j, g i j = g j i) (i j : Nat) : fwInit g i j = fwInit g j i := by
  unfold fwInit
  rcases eq_or_ne i j with rfl | hne
  · rfl
  · rw [if_neg hne, if_neg (Ne.symm hne), hg]

theorem fwStep_symm (d : Nat → Nat → WithTop ℚ)
    (hd : ∀ i j, d i j = d j i) (m i j : Nat) :
    fwStep d m i j = fwStep d m j i := by
  unfold fwStep
  rw [hd i j, hd i m, hd m j, add_comm]

theorem foldl_fwStep_symm :
    ∀ (L : List Nat) (d : Nat → Nat → WithTop ℚ),
      (∀ i j, d i j = d j i) → ∀ i j,
        (L.foldl fwStep d) i j = (L.foldl fwStep d) j i
  | [], _, hd, i, j => hd i j
  | m :: L, d, hd, i, j =>
    foldl_fwStep_symm L (fwStep d m) (fwStep_symm d hd m) i j

theorem pathDist_symm (sq : ℚ → ℚ) (delta eta : ℚ) (mesh : Mesh) (i j : Nat) :
    pathDist sq delta eta mesh i j = pathDist sq delta eta mesh j i :=
  foldl_fwStep_symm _ _ (fwInit_symm _ (graphAt_symm sq delta eta mesh)) i j

theorem wZero_symm (sq : ℚ → ℚ) (delta eta : ℚ) (mesh : Mesh) (i j : Nat) :
    wZero sq delta eta mesh i j = wZero sq delta eta mesh j i := by
  unfold wZero
  rw [pathDist_symm]

/-! ## Accumulation of duplicate sparse entries -/

theorem flatMap_filter_sum_sharedEdges (sq : ℚ → ℚ) (delta eta : ℚ)
    (mesh : Mesh) {i j : Nat} (hne : i ≠ j) :
    ∀ L : List ((Nat × Nat) × List Nat),
      (((L.flatMap (entryBlock sq eta mesh)).filter
          (fun t => t.1.1 = i ∧ t.1.2 = j)).map
        (fun t => blendValue delta (listMean (gVals sq eta mesh))
          (listMean (aVals sq eta mesh)) t.2)).sum =
        ((L.filter (fun p => p.2 = [i, j] ∨ p.2 = [j, i])).map
          (edgeWeight sq delta eta mesh)).sum
  | [] => rfl
  | ⟨e, adj⟩ :: L => by
    have ih := flatMap_filter_sum_sharedEdges sq delta eta mesh hne L
    simp only [List.flatMap_cons, List.filter_append, List.map_append,
      List.sum_append, List.filter_cons]
    match adj with
    | [] => simpa [entryBlock] using ih
    | [x] => simpa [entryBlock] using ih
    | x :: y :: z :: rest => simpa [entryBlock] using ih
    | [a, b] =>
      simp only [entryBlock]
      rw [filter_map_sum_pair]
      by_cases h1 : a = i ∧ b = j
      · obtain ⟨rfl, rfl⟩ := h1
        have h2 : ¬(b = a ∧ a = b) := fun h => hne h.2
        simp [h2, edgeWeight]
        simpa using ih
      · by_cases h2 : b = i ∧ a = j
        · obtain ⟨rfl, rfl⟩ := h2
          have h1' : ¬(a = b ∧ b = a) := fun h => hne h.1.symm
          simp [h1', edgeWeight]
          simpa using ih
        · have h2' : ¬(a = j ∧ b = i) := fun h => h2 ⟨h.2, h.1⟩
          simp [h1, h2, h2']
          simpa using ih

/-- C10: when faces `i ≠ j` share more than one edge (each edge having
exactly those two incident faces), the assembled sparse entry `(i, j)` is
the sum of the blended weights of all shared edges — `csr_matrix`
accumulates duplicate `(row, col)` pairs. -/
theorem duplicate_edges_accumulate (sq : ℚ → ℚ) (delta eta : ℚ)
    (mesh : Mesh) {i j : Nat} (hne : i ≠ j)
    (hmulti : 2 ≤ (sharedEdges mesh i j).length) :
    distEntry sq delta eta mesh i j =
      ((sharedEdges mesh i j).map (edgeWeight sq delta eta mesh)).sum :=
  flatMap_filter_sum_sharedEdges sq delta eta mesh hne (adjFacesMap mesh)

/-- C4: the affinity matrix is symmetric.  For every mesh, every choice of
coefficients and every pair of indices, `W[i,j] = W[j,i]` holds exactly
over exact arithmetic, for any float `sqrt`/`exp` realizations. -/
theorem affinity_symmetric (sq exp' : ℚ → ℚ) (delta eta : ℚ) (mesh : Mesh)
    (i j : Nat) :
    affinity sq exp' delta eta mesh i j = affinity sq exp' delta eta mesh j i := by
  unfold affinity
  rcases eq_or_ne i j with rfl | hne
  · rfl
  · rw [if_neg hne, if_neg (Ne.symm hne), pathDist_symm, wZero_symm]

/-! ## Mean-one normalization (C7) -/

/-- C7: before blending, the normalized geodesic component and the
normalized angular component each have mean exactly `1` over the populated
adjacent-face entries, provided at least one pair exists and neither mean
is zero. -/
theorem normalized_distances_mean_one (sq : ℚ → ℚ) (eta : ℚ) (mesh : Mesh)
    (hg : gVals sq eta mesh ≠ []) (hgm : listMean (gVals sq eta mesh) ≠ 0)
    (ha : aVals sq eta mesh ≠ []) (ham : listMean (aVals sq eta mesh) ≠ 0) :
    listMean (normGeo sq eta mesh) = 1 ∧ listMean (normAng sq eta mesh) = 1 := by
  constructor
  · unfold normGeo
    exact listMean_self_normalized _ hg hgm
  · unfold normAng
    exact listMean_self_normalized _ ha ham

/-! ## The greedy initialization (`_initial_guess`) -/

theorem nColsOf_eq {Q : List (List ℚ)} {n : Nat} (hQ : Q ≠ [])
    (hrow : ∀ r ∈ Q, r.length = n) : nColsOf Q = n := by
  match Q with
  | [] => exact absurd rfl hQ
  | r :: Q => exact hrow r (List.mem_cons_self _ _)

theorem minIndices_lt {Q : List (List ℚ)} (hQ : 0 < Q.length)
    (hrow : ∀ r ∈ Q, r.length = Q.length) :
    (minIndices Q).1 < Q.length ∧ (minIndices Q).2 < Q.length := by
  have hQne : Q ≠ [] := List.length_pos.mp hQ
  have hncols : nColsOf Q = Q.length := nColsOf_eq hQne hrow
  have hflat : Q.flatten.length = Q.length * Q.length :=
    flatten_length_uniform Q hrow
  have hflatne : Q.flatten ≠ [] := by
    apply List.length_pos.mp
    rw [hflat]
    exact Nat.mul_pos hQ hQ
  have harg : argminIdx Q.flatten < Q.length * Q.length := by
    rw [← hflat]
    exact argminIdx_lt _ hflatne
  unfold minIndices
  rw [hncols]
  exact ⟨Nat.div_lt_of_lt_mul harg, Nat.mod_lt _ hQ⟩

theorem minIndices_qAt_le {Q : List (List ℚ)} (hQ : 0 < Q.length)
    (hrow : ∀ r ∈ Q, r.length = Q.length) {a b : Nat} (ha : a < Q.length)
    (hb : b < Q.length) :
    qAt Q (minIndices Q).1 (minIndices Q).2 ≤ qAt Q a b := by
  have hQne : Q ≠ [] := List.length_pos.mp hQ
  have hncols : nColsOf Q = Q.length := nColsOf_eq hQne hrow
  have hflat : Q.flatten.length = Q.length * Q.length :=
    flatten_length_uniform Q hrow
  have hflatne : Q.flatten ≠ [] := by
    apply List.length_pos.mp
    rw [hflat]
    exact Nat.mul_pos hQ hQ
  have harg : argminIdx Q.flatten < Q.length * Q.length := by
    rw [← hflat]
    exact argminIdx_lt _ hflatne
  have hab : a * Q.length + b < Q.flatten.length := by
    rw [hflat]
    calc a * Q.length + b < a * Q.length + Q.length := by omega
      _ = (a + 1) * Q.length := by ring
      _ ≤ Q.length * Q.length := Nat.mul_le_mul_right _ (by omega)
  have hle := argminIdx_getD_le Q.flatten (a * Q.length + b) hab
  have hsplit : argminIdx Q.flatten =
      (argminIdx Q.flatten / Q.length) * Q.length +
        argminIdx Q.flatten % Q.length := by
    rw [Nat.mul_comm]
    exact (Nat.div_add_mod _ _).symm
  rw [hsplit] at hle
  rw [flatten_getD_uniform Q hrow _ _ (Nat.div_lt_of_lt_mul harg)
    (Nat.mod_lt _ hQ)] at hle
  rw [flatten_getD_uniform Q hrow a b ha hb] at hle
  unfold minIndices
  rw [hncols]
  exact hle

theorem greedyExtend_length (Q : List (List ℚ)) :
    ∀ (m : Nat) (ch : List Nat),
      ((List.range m).foldl (fun ch _ => ch ++ [nextIndex Q ch]) ch).length =
        ch.length + m
  | 0, ch => by simp
  | m + 1, ch => by
    rw [List.range_succ, List.foldl_append]
    simp [greedyExtend_length Q m ch]
    omega

theorem greedyExtend_succ (Q : List (List ℚ)) (m : Nat) (ch : List Nat) :
    (List.range (m + 1)).foldl (fun ch _ => ch ++ [nextIndex Q ch]) ch =
      ((List.range m).foldl (fun ch _ => ch ++ [nextIndex Q ch]) ch) ++
        [nextIndex Q ((List.range m).foldl
          (fun ch _ => ch ++ [nextIndex Q ch]) ch)] := by
  rw [List.range_succ, List.foldl_append]
  rfl

theorem greedyExtendMono (Q : List (List ℚ)) (ch : List Nat) {m m' : Nat}
    (h : m ≤ m') :
    ((List.range m).foldl (fun ch _ => ch ++ [nextIndex Q ch]) ch) <+:
      ((List.range m').foldl (fun ch _ => ch ++ [nextIndex Q ch]) ch) := by
  induction m', h using Nat.le_induction with
  | base => exact List.prefix_refl _
  | succ m' hm ih =>
    refine ih.trans ?_
    rw [greedyExtend_succ]
    exact List.prefix_append _ _

theorem nextIndex_step {Q : List (List ℚ)}
    (hrow : ∀ r ∈ Q, r.length = Q.length)
    (hdiag : ∀ c, c < Q.length → qAt Q c c = 1)
    (hoff : ∀ c j, c < Q.length → j < Q.length → c ≠ j → qAt Q c j < 1)
    {ch : List Nat} (hch : ch ≠ []) (hnd : ch.Nodup)
    (hmem : ∀ c ∈ ch, c < Q.length) (hlen : ch.length < Q.length) :
    nextIndex Q ch ∉ ch ∧ nextIndex Q ch < Q.length := by
  have hn : 0 < Q.length := Nat.lt_of_le_of_lt (Nat.zero_le _) hlen
  have hQne : Q ≠ [] := List.length_pos.mp hn
  have hncols : nColsOf Q = Q.length := nColsOf_eq hQne hrow
  have hfdef : nextIndex Q ch =
      argminIdx ((List.range Q.length).map (colMax Q ch)) := by
    unfold nextIndex
    rw [hncols]
  have hflen : ((List.range Q.length).map (colMax Q ch)).length = Q.length := by
    simp
  have hfne : ((List.range Q.length).map (colMax Q ch)) ≠ [] := by
    apply List.length_pos.mp
    rw [hflen]
    exact hn
  have harg : nextIndex Q ch < Q.length := by
    rw [hfdef]
    exact lt_of_lt_of_eq (argminIdx_lt _ hfne) hflen
  refine ⟨?_, harg⟩
  -- the value at any already chosen index is at least 1
  have hub : ∀ c ∈ ch, (1 : ℚ) ≤ colMax Q ch c := by
    intro c hc
    have hcn : c < Q.length := hmem c hc
    have hmemmap : qAt Q c c ∈ ch.map (fun c' => qAt Q c' c) :=
      List.mem_map_of_mem _ hc
    have := le_maxListD hmemmap
    rw [hdiag c hcn] at this
    exact this
  -- there is an unchosen index, and its value is below 1
  obtain ⟨j0, hj0n, hj0notin⟩ := exists_not_mem_of_length_lt hnd hlen
  have hval : colMax Q ch j0 < 1 := by
    apply maxListD_lt (by simpa using hch)
    intro x hx
    obtain ⟨c, hc, rfl⟩ := List.mem_map.mp hx
    exact hoff c j0 (hmem c hc) hj0n (fun h => hj0notin (h ▸ hc))
  have hminlt : colMax Q ch (nextIndex Q ch) < 1 := by
    have hle := argminIdx_getD_le ((List.range Q.length).map (colMax Q ch))
      j0 (by rw [hflen]; exact hj0n)
    rw [getD_map_range _ hj0n] at hle
    rw [← hfdef] at hle
    rw [getD_map_range _ harg] at hle
    exact lt_of_le_of_lt hle hval
  intro hmem'
  exact absurd (hub _ hmem') (not_le.mpr hminlt)

theorem greedyExtend_invariant {Q : List (List ℚ)}
    (hrow : ∀ r ∈ Q, r.length = Q.length)
    (hdiag : ∀ c, c < Q.length → qAt Q c c = 1)
    (hoff : ∀ c j, c < Q.length → j < Q.length → c ≠ j → qAt Q c j < 1) :
    ∀ (m : Nat) (ch : List Nat), ch ≠ [] → ch.Nodup →
      (∀ c ∈ ch, c < Q.length) → ch.length + m ≤ Q.length →
      ((List.range m).foldl (fun ch _ => ch ++ [nextIndex Q ch]) ch).Nodup ∧
        ∀ c ∈ (List.range m).foldl (fun ch _ => ch ++ [nextIndex Q ch]) ch,
          c < Q.length
  | 0, ch, _, hnd, hmem, _ => by simpa using ⟨hnd, hmem⟩
  | m + 1, ch, hch, hnd, hmem, hbound => by
    obtain ⟨ihnd, ihmem⟩ := greedyExtend_invariant hrow hdiag hoff m ch hch
      hnd hmem (by omega)
    set res := (List.range m).foldl (fun ch _ => ch ++ [nextIndex Q ch]) ch
      with hres
    have hreslen : res.length = ch.length + m := greedyExtend_length Q m ch
    have hresne : res ≠ [] := by
      apply List.length_pos.mp
      rw [hreslen]
      have : 0 < ch.length := List.length_pos.mpr hch
      omega
    have hreslt : res.length < Q.length := by omega
    obtain ⟨hnotmem, hlt⟩ := nextIndex_step hrow hdiag hoff hresne ihnd
      ihmem hreslt
    rw [greedyExtend_succ]
    constructor
    · rw [List.nodup_append]
      exact ⟨ihnd, List.nodup_singleton _,
        fun a ha hb => hnotmem ((List.mem_singleton.mp hb) ▸ ha)⟩
    · intro c hc
      rcases List.mem_append.mp hc with hc | hc
      · exact ihmem c hc
      · rw [List.mem_singleton.mp hc]
        exact hlt

/-- C5 (amended): when the association matrix is square with unit diagonal
and all off-diagonal entries strictly below the self-association `1`, and
`2 ≤ k ≤ n`, the greedy initialization returns `k` pairwise-distinct
indices, and the first two attain the global minimum of `Q`. -/
theorem initial_guess_distinct {Q : List (List ℚ)} {k : Nat}
    (hrow : ∀ r ∈ Q, r.length = Q.length)
    (hdiag : ∀ c, c < Q.length → qAt Q c c = 1)
    (hoff : ∀ c j, c < Q.length → j < Q.length → c ≠ j → qAt Q c j < 1)
    (h2k : 2 ≤ k) (hkn : k ≤ Q.length) :
    (initialGuess Q k).Nodup ∧ (initialGuess Q k).length = k ∧
      ∀ a b, a < Q.length → b < Q.length →
        qAt Q ((initialGuess Q k).getD 0 0) ((initialGuess Q k).getD 1 0) ≤
          qAt Q a b := by
  have hn : 0 < Q.length := by omega
  obtain ⟨hi0, hj0⟩ := minIndices_lt hn hrow
  have hne01 : (minIndices Q).1 ≠ (minIndices Q).2 := by
    intro heq
    have hmin := minIndices_qAt_le hn hrow (a := 0) (b := 1) (by omega) (by omega)
    have h01 : qAt Q 0 1 < 1 := hoff 0 1 (by omega) (by omega) (by omega)
    rw [← heq, hdiag _ hi0] at hmin
    exact absurd (lt_of_le_of_lt hmin h01) (lt_irrefl _)
  have hstartnd : ([(minIndices Q).1, (minIndices Q).2] : List Nat).Nodup := by
    simp [hne01]
  have hstartmem : ∀ c ∈ [(minIndices Q).1, (minIndices Q).2], c < Q.length := by
    intro c hc
    rcases List.mem_cons.mp hc with rfl | hc
    · exact hi0
    · rw [List.mem_singleton.mp hc]
      exact hj0
  obtain ⟨hnd, hmem⟩ := greedyExtend_invariant hrow hdiag hoff (k - 2)
    [(minIndices Q).1, (minIndices Q).2] (by simp) hstartnd hstartmem
    (by simp; omega)
  have hlen : (initialGuess Q k).length = k := by
    unfold initialGuess
    rw [greedyExtend_length]
    simp
    omega
  have hpre : ([(minIndices Q).1, (minIndices Q).2] : List Nat) <+:
      initialGuess Q k := by
    unfold initialGuess
    exact greedyExtendMono Q _ (Nat.zero_le _)
  refine ⟨hnd, hlen, ?_⟩
  intro a b ha hb
  rw [prefix_getD_eq hpre (by simp), prefix_getD_eq hpre (by simp)]
  exact minIndices_qAt_le hn hrow ha hb

/-- C6 (amended): the greedy initialization picks the globally
lowest-association pair as the first two centers, then adds one center per
round for `k - 2` more rounds, each round adding a face index whose
maximum association to the already-chosen centers is minimal, yielding `k`
centers in total. -/
theorem initial_guess_rounds {Q : List (List ℚ)} {k : Nat}
    (hQ : 0 < Q.length) (hrow : ∀ r ∈ Q, r.length = Q.length)
    (h2k : 2 ≤ k) :
    (initialGuess Q k).length = k ∧
      (∀ a b, a < Q.length → b < Q.length →
        qAt Q ((initialGuess Q k).getD 0 0) ((initialGuess Q k).getD 1 0) ≤
          qAt Q a b) ∧
      ∀ r, 2 ≤ r → r < k →
        ((initialGuess Q k).getD r 0 < nColsOf Q ∧
          ∀ j, j < nColsOf Q →
            colMax Q ((initialGuess Q k).take r)
                ((initialGuess Q k).getD r 0) ≤
              colMax Q ((initialGuess Q k).take r) j) := by
  have hlen : (initialGuess Q k).length = k := by
    unfold initialGuess
    rw [greedyExtend_length]
    simp
    omega
  have hpre0 : ([(minIndices Q).1, (minIndices Q).2] : List Nat) <+:
      initialGuess Q k := by
    unfold initialGuess
    exact greedyExtendMono Q _ (Nat.zero_le _)
  have hncols : nColsOf Q = Q.length :=
    nColsOf_eq (List.length_pos.mp hQ) hrow
  refine ⟨hlen, ?_, ?_⟩
  · intro a b ha hb
    rw [prefix_getD_eq hpre0 (by simp), prefix_getD_eq hpre0 (by simp)]
    exact minIndices_qAt_le hQ hrow ha hb
  · intro r h2r hrk
    set start : List Nat := [(minIndices Q).1, (minIndices Q).2] with hstart
    set chm := (List.range (r - 2)).foldl
      (fun ch _ => ch ++ [nextIndex Q ch]) start with hchm
    have hchmlen : chm.length = r := by
      rw [hchm, greedyExtend_length]
      simp [hstart]
      omega
    have hprem : chm <+: initialGuess Q k := by
      unfold initialGuess
      exact greedyExtendMono Q _ (by omega)
    have htake : (initialGuess Q k).take r = chm := by
      have := (List.prefix_iff_eq_take.mp hprem)
      rw [hchmlen] at this
      exact this.symm
    have hsucc : (List.range (r - 2 + 1)).foldl
        (fun ch _ => ch ++ [nextIndex Q ch]) start =
          chm ++ [nextIndex Q chm] := greedyExtend_succ Q (r - 2) start
    have hpresucc : chm ++ [nextIndex Q chm] <+: initialGuess Q k := by
      rw [← hsucc]
      unfold initialGuess
      exact greedyExtendMono Q _ (by omega)
    have hgetr : (initialGuess Q k).getD r 0 = nextIndex Q chm := by
      rw [prefix_getD_eq hpresucc (by simp [hchmlen])]
      rw [List.getD_append_right _ _ _ _ (by omega), hchmlen]
      simp
    have hflen : ((List.range (nColsOf Q)).map (colMax Q chm)).length =
        nColsOf Q := by simp
    have hargbound : nextIndex Q chm < nColsOf Q := by
      unfold nextIndex
      refine lt_of_lt_of_eq (argminIdx_lt _ ?_) hflen
      apply List.length_pos.mp
      rw [hflen, hncols]
      exact hQ
    refine ⟨by rw [hgetr]; exact hargbound, ?_⟩
    intro j hj
    rw [htake, hgetr]
    have hle := argminIdx_getD_le ((List.range (nColsOf Q)).map (colMax Q chm))
      j (by rw [hflen]; exact hj)
    rw [getD_map_range _ hj] at hle
    have : nextIndex Q chm =
        argminIdx ((List.range (nColsOf Q)).map (colMax Q chm)) := rfl
    rw [← this] at hle
    rw [getD_map_range _ hargbound] at hle
    exact hle

/-! ## k-means and the segmentation entry point -/

theorem vqAssign_length (data codebook : List (List ℚ)) :
    (vqAssign data codebook).length = data.length := by
  simp [vqAssign]

theorem vqAssign_mem_lt (data codebook : List (List ℚ))
    (hcb : 0 < codebook.length) :
    ∀ x ∈ vqAssign data codebook, x < codebook.length := by
  intro x hx
  obtain ⟨d, _, rfl⟩ := List.mem_map.mp hx
  have hlen : (codebook.map (fun c => sqDist d c)).length = codebook.length := by
    simp
  have hne : codebook.map (fun c => sqDist d c) ≠ [] := by
    apply List.length_pos.mp
    rw [hlen]
    exact hcb
  exact lt_of_lt_of_eq (argminIdx_lt _ hne) hlen

theorem updateCodebook_length (data codebook : List (List ℚ))
    (labels : List Nat) :
    (updateCodebook data codebook labels).length = codebook.length := by
  simp [updateCodebook]

theorem kmeansLoop_length (data : List (List ℚ)) :
    ∀ (n : Nat) (cb : List (List ℚ)),
      (kmeansLoop data cb (n + 1)).length = data.length
  | 0, cb => vqAssign_length data cb
  | n + 1, cb => kmeansLoop_length data n
      (updateCodebook data cb (vqAssign data cb))

theorem kmeansLoop_mem_lt (data : List (List ℚ)) :
    ∀ (n : Nat) (cb : List (List ℚ)), 0 < cb.length →
      ∀ x ∈ kmeansLoop data cb (n + 1), x < cb.length
  | 0, cb, hcb => vqAssign_mem_lt data cb hcb
  | n + 1, cb, hcb => by
    intro x hx
    have hcb' : 0 < (updateCodebook data cb (vqAssign data cb)).length := by
      rw [updateCodebook_length]
      exact hcb
    have := kmeansLoop_mem_lt data n
      (updateCodebook data cb (vqAssign data cb)) hcb' x hx
    rw [updateCodebook_length] at this
    exact this

theorem rowNormalize_length (sq : ℚ → ℚ) (V : List (List ℚ)) :
    (rowNormalize sq V).length = V.length := by
  simp [rowNormalize]

theorem initialGuess_length (Q : List (List ℚ)) {k : Nat} (h2k : 2 ≤ k) :
    (initialGuess Q k).length = k := by
  unfold initialGuess
  rw [greedyExtend_length]
  simp
  omega

theorem segmentCore_length (sq exp' : ℚ → ℚ)
    (eig : EvMethod → (Nat → Nat → ℚ) → Nat → List (List ℚ))
    (ppInit : List (List ℚ)) (mesh : Mesh) (k : Nat) (delta eta : ℚ)
    (evMethod : EvMethod) (kmInit : KmInit)
    (heig : (eig evMethod (laplacian sq exp' delta eta mesh) k).length =
      mesh.polygons.length) :
    (segmentCore sq exp' eig ppInit mesh k delta eta evMethod kmInit).length =
      mesh.polygons.length := by
  unfold segmentCore
  cases kmInit with
  | kmeanspp =>
    rw [show (50 : Nat) = 49 + 1 from rfl, kmeansLoop_length,
      rowNormalize_length, heig]
  | greedy =>
    rw [show (50 : Nat) = 49 + 1 from rfl, kmeansLoop_length,
      rowNormalize_length, heig]

theorem segmentCore_mem_lt (sq exp' : ℚ → ℚ)
    (eig : EvMethod → (Nat → Nat → ℚ) → Nat → List (List ℚ))
    (ppInit : List (List ℚ)) (mesh : Mesh) (k : Nat) (delta eta : ℚ)
    (evMethod : EvMethod) (kmInit : KmInit) (h2k : 2 ≤ k)
    (hpp : kmInit = KmInit.kmeanspp → ppInit.length = k) :
    ∀ x ∈ segmentCore sq exp' eig ppInit mesh k delta eta evMethod kmInit,
      x < k := by
  unfold segmentCore
  cases kmInit with
  | kmeanspp =>
    intro x hx
    have hcb : ppInit.length = k := hpp rfl
    rw [show (50 : Nat) = 49 + 1 from rfl] at hx
    have := kmeansLoop_mem_lt _ 49 ppInit (by omega) x hx
    omega
  | greedy =>
    intro x hx
    rw [show (50 : Nat) = 49 + 1 from rfl] at hx
    set Vn := rowNormalize sq (eig evMethod (laplacian sq exp' delta eta mesh) k)
    set cb := (initialGuess (Vn.map (fun r => Vn.map (fun r' => dotL r r'))) k).map
      (fun c => Vn.getD c [])
    have hcb : cb.length = k := by
      simp only [cb, List.length_map]
      exact initialGuess_length _ h2k
    have := kmeansLoop_mem_lt _ 49 cb (by omega) x hx
    omega

/-- C1: for every mesh and every valid `k` in `[2, face_count]`, each
`segment_mesh` call produces a cluster label for every face, every label
lying in `[0, k)` — given only the shape contract of the eigensolver (an
`l × k` eigenvector matrix) and, for the `++` path, of the random seeding
(`k` initial centroids). -/
theorem segment_labels_in_range (sq exp' : ℚ → ℚ)
    (eig : EvMethod → (Nat → Nat → ℚ) → Nat → List (List ℚ))
    (ppInit : List (List ℚ)) (st : ModState) (mesh : Mesh) (k : Nat)
    (coefficients : ℚ × ℚ) (evMethod : EvMethod) (kmInit : KmInit)
    (h2k : 2 ≤ k) (hkn : k ≤ mesh.polygons.length)
    (heig : (eig evMethod
      (laplacian sq exp' coefficients.1 coefficients.2 mesh) k).length =
        mesh.polygons.length)
    (hpp : kmInit = KmInit.kmeanspp → ppInit.length = k) :
    (segmentMeshS sq exp' eig ppInit st mesh k coefficients evMethod
        kmInit).2.length = mesh.polygons.length ∧
      ∀ lab ∈ (segmentMeshS sq exp' eig ppInit st mesh k coefficients
        evMethod kmInit).2, lab < k := by
  unfold segmentMeshS
  exact ⟨segmentCore_length sq exp' eig ppInit mesh k _ _ evMethod kmInit heig,
    segmentCore_mem_lt sq exp' eig ppInit mesh k _ _ evMethod kmInit h2k hpp⟩

/-- C3 (amended): `segment_mesh` performs no parameter validation and the
module defines no `InputError`.  A call with any coefficient pair
(including `delta` outside `[0, 1]`) and any `k` in `[1, face_count]` — in
particular the invalid `k = 1` — runs the full pipeline and produces a
label for every face, under the eigensolver's shape contract (which the
real solvers satisfy on exactly this range of `k`).  A `k` outside
`[1, face_count]` is likewise not validated: such a call still runs the
distance and affinity stages first and only then fails inside the library
eigensolver with a `ValueError`, never with an `InputError`; that library
abort is outside this model, so the completion statement below is scoped
to `1 ≤ k ≤ face_count`. -/
theorem segment_no_validation (sq exp' : ℚ → ℚ)
    (eig : EvMethod → (Nat → Nat → ℚ) → Nat → List (List ℚ))
    (ppInit : List (List ℚ)) (st : ModState) (mesh : Mesh) (k : Nat)
    (coefficients : ℚ × ℚ) (evMethod : EvMethod) (kmInit : KmInit)
    (h1k : 1 ≤ k) (hkn : k ≤ mesh.polygons.length)
    (heig : (eig evMethod
      (laplacian sq exp' coefficients.1 coefficients.2 mesh) k).length =
        mesh.polygons.length) :
    (segmentMeshS sq exp' eig ppInit st mesh k coefficients evMethod
      kmInit).2.length = mesh.polygons.length := by
  unfold segmentMeshS
  exact segmentCore_length sq exp' eig ppInit mesh k _ _ evMethod kmInit heig

/-- C2 (amended): the module performs no numeric-domain check, so a zero
normalization divisor does not guarantee an abort: on the degenerate
two-face mesh `Mdeg`, whose geodesic mean is zero, `segment_mesh` runs to
completion and invokes the callback exactly once, with a label for each of
the two faces.  (In the floating-point execution of this very input the
NaN edge weights never relax a `dijkstra` path, the affinity matrix
collapses to the identity, the Laplacian is the identity, `eigh` returns
the finite standard basis — the matrix `eigWit` yields — and the
normalized embedding stays finite, so the `check_finite` validation inside
`scipy.cluster.vq.kmeans2` — the only abort a degenerate input can
trigger, a library `ValueError` rather than any module-level error — does
not fire.  On degenerate inputs whose NaNs do reach the clustering data,
for example through a zero-norm embedding row, that library validation
aborts the call instead; that abort path is outside this model, so this
theorem is stated on the concrete input above, where the floating
execution verifiably stays finite at the `kmeans2` boundary.) -/
theorem zero_mean_still_clusters :
    listMean (gVals id ((1/2 : ℚ), (1/2 : ℚ)).2 Mdeg) = 0 ∧
      (callbackTrace id id eigWit [] Mdeg 2 ((1/2 : ℚ), (1/2 : ℚ)) true
        EvMethod.dense KmInit.greedy).length = 1 ∧
      ∀ p ∈ callbackTrace id id eigWit [] Mdeg 2 ((1/2 : ℚ), (1/2 : ℚ))
        true EvMethod.dense KmInit.greedy,
          p.2.length = Mdeg.polygons.length := by
  refine ⟨?_, ?_, ?_⟩
  · norm_num [listMean, gVals, entryList, adjFacesMap, addEdgeFace,
      entryBlock, geodesicDistance, faceCenter, vertexCo, faceAt,
      Vec3.lengthWith, Vec3.dot, Vec3.add, Vec3.sub, Vec3.smul, Vec3.zero,
      List.enum, Mdeg, List.enumFrom, List.foldl_cons, List.foldl_nil,
      List.flatMap_cons, List.flatMap_nil]
  · simp [callbackTrace]
  · intro p hp
    have hp' : p = (2, (segmentMeshS id id eigWit [] (none, none) Mdeg 2
        ((1/2 : ℚ), (1/2 : ℚ)) EvMethod.dense KmInit.greedy).2) := by
      simpa [callbackTrace] using hp
    subst hp'
    show (segmentCore id id eigWit [] Mdeg 2 (1/2 : ℚ) (1/2 : ℚ)
      EvMethod.dense KmInit.greedy).length = Mdeg.polygons.length
    exact segmentCore_length id id eigWit [] Mdeg 2 _ _ EvMethod.dense
      KmInit.greedy rfl

/-- C9: in every execution of `segment_mesh` the `action` callback is
invoked at most once, and every invocation delivers the final `k` together
with a complete cluster assignment (one label per face); the source has no
other call site and no early exit, so no partial assignment can ever be
delivered. -/
theorem callback_at_most_once_complete (sq exp' : ℚ → ℚ)
    (eig : EvMethod → (Nat → Nat → ℚ) → Nat → List (List ℚ))
    (ppInit : List (List ℚ)) (mesh : Mesh) (k : Nat)
    (coefficients : ℚ × ℚ) (hasAction : Bool) (evMethod : EvMethod)
    (kmInit : KmInit)
    (heig : (eig evMethod
      (laplacian sq exp' coefficients.1 coefficients.2 mesh) k).length =
        mesh.polygons.length) :
    (callbackTrace sq exp' eig ppInit mesh k coefficients hasAction evMethod
        kmInit).length ≤ 1 ∧
      ∀ p ∈ callbackTrace sq exp' eig ppInit mesh k coefficients hasAction
        evMethod kmInit, p.1 = k ∧ p.2.length = mesh.polygons.length := by
  cases hasAction with
  | false => simp [callbackTrace]
  | true =>
    constructor
    · simp [callbackTrace]
    · intro p hp
      have hp' : p = (k, (segmentMeshS sq exp' eig ppInit (none, none) mesh k
          coefficients evMethod kmInit).2) := by
        simpa [callbackTrace] using hp
      subst hp'
      refine ⟨rfl, ?_⟩
      unfold segmentMeshS
      exact segmentCore_length sq exp' eig ppInit mesh k _ _ evMethod kmInit heig

/-- C8 (amended): `segment_mesh` writes the module-level `delta`/`eta`
globals at entry and reads them back afterwards, so its observable
behaviour — the final module state and the returned labels — is entirely
independent of the module state left behind by any earlier call. -/
theorem segment_state_independent (sq exp' : ℚ → ℚ)
    (eig : EvMethod → (Nat → Nat → ℚ) → Nat → List (List ℚ))
    (ppInit : List (List ℚ)) (mesh : Mesh) (k : Nat)
    (coefficients : ℚ × ℚ) (evMethod : EvMethod) (kmInit : KmInit)
    (st st' : ModState) :
    segmentMeshS sq exp' eig ppInit st mesh k coefficients evMethod kmInit =
      segmentMeshS sq exp' eig ppInit st' mesh k coefficients evMethod
        kmInit := rfl

/-! ## Witnesses and counterexamples on the concrete inputs -/

/-- C1 witness: the labels theorem instantiated on the two-triangle mesh
with `k = 2`, greedy initialization and the concrete eigensolver oracle. -/
theorem segment_labels_in_range_witness :
    (2 ≤ 2 ∧ 2 ≤ Mwit.polygons.length ∧
      (eigWit EvMethod.dense
        (laplacian id id ((1/2 : ℚ), (1/2 : ℚ)).1 ((1/2 : ℚ), (1/2 : ℚ)).2
          Mwit) 2).length = Mwit.polygons.length) ∧
      ((segmentMeshS id id eigWit [] (none, none) Mwit 2
          ((1/2 : ℚ), (1/2 : ℚ)) EvMethod.dense KmInit.greedy).2.length =
        Mwit.polygons.length ∧
        ∀ lab ∈ (segmentMeshS id id eigWit [] (none, none) Mwit 2
          ((1/2 : ℚ), (1/2 : ℚ)) EvMethod.dense KmInit.greedy).2, lab < 2) :=
  ⟨⟨le_refl 2, by decide, rfl⟩,
    segment_labels_in_range id id eigWit [] (none, none) Mwit 2
      ((1/2 : ℚ), (1/2 : ℚ)) EvMethod.dense KmInit.greedy (le_refl 2)
      (by decide) rfl (fun h => nomatch h)⟩

/-- C2 counterexample: on the degenerate all-zero mesh the geodesic mean
is `0`, yet the call does not abort — the callback is still invoked. -/
theorem zero_divisor_no_abort_cex :
    listMean (gVals id ((1/2 : ℚ), (1/2 : ℚ)).2 Mdeg) = 0 ∧
      callbackTrace id id eigWit [] Mdeg 2 ((1/2 : ℚ), (1/2 : ℚ)) true
        EvMethod.dense KmInit.greedy ≠ [] := by
  constructor
  · norm_num [listMean, gVals, entryList, adjFacesMap, addEdgeFace,
      entryBlock, geodesicDistance, faceCenter, vertexCo, faceAt,
      Vec3.lengthWith, Vec3.dot, Vec3.add, Vec3.sub, Vec3.smul, Vec3.zero,
      List.enum, Mdeg, List.enumFrom, List.foldl_cons, List.foldl_nil,
      List.flatMap_cons, List.flatMap_nil]
  · simp [callbackTrace]

/-- C3 counterexample: a call with `k = 1` (outside `[2, face_count]`) and
`delta = -1/10` (outside `[0, 1]`) raises no `InputError`; it runs the
whole pipeline and produces a label for every face. -/
theorem no_input_validation_cex :
    ¬ (2 ≤ 1) ∧ ¬ ((0 : ℚ) ≤ -1/10) ∧
      (segmentMeshS id id eigWit [] (none, none) Mwit 1
        ((-1/10 : ℚ), (1/2 : ℚ)) EvMethod.dense KmInit.greedy).2.length =
          Mwit.polygons.length := by
  refine ⟨by omega, by norm_num, ?_⟩
  show (segmentCore id id eigWit [] Mwit 1 (-1/10 : ℚ) (1/2 : ℚ)
    EvMethod.dense KmInit.greedy).length = Mwit.polygons.length
  exact segmentCore_length id id eigWit [] Mwit 1 _ _ EvMethod.dense
    KmInit.greedy rfl

/-- C3 witness: the no-validation theorem instantiated at the invalid
input `k = 1`, `delta = -1/10` (with `1 ≤ 1 ≤ face_count`). -/
theorem segment_no_validation_witness :
    (1 ≤ 1 ∧ 1 ≤ Mwit.polygons.length ∧
      (eigWit EvMethod.dense
        (laplacian id id ((-1/10 : ℚ), (1/2 : ℚ)).1
          ((-1/10 : ℚ), (1/2 : ℚ)).2 Mwit) 1).length =
        Mwit.polygons.length) ∧
      (segmentMeshS id id eigWit [] (none, none) Mwit 1
        ((-1/10 : ℚ), (1/2 : ℚ)) EvMethod.dense KmInit.greedy).2.length =
          Mwit.polygons.length :=
  ⟨⟨le_refl 1, by decide, rfl⟩,
    segment_no_validation id id eigWit [] (none, none) Mwit 1
      ((-1/10 : ℚ), (1/2 : ℚ)) EvMethod.dense KmInit.greedy (le_refl 1)
      (by decide) rfl⟩

/-- C5 counterexample: the all-ones `2 × 2` association matrix has unit
self-association everywhere, yet `_initial_guess` returns `[0, 0]` — the
same face index twice. -/
theorem greedy_duplicate_cex :
    (∀ i, i < 2 → qAt ([[1, 1], [1, 1]] : List (List ℚ)) i i = 1) ∧
      initialGuess ([[1, 1], [1, 1]] : List (List ℚ)) 2 = [0, 0] ∧
      ¬ (initialGuess ([[1, 1], [1, 1]] : List (List ℚ)) 2).Nodup := by
  refine ⟨?_, ?_, ?_⟩
  · intro i hi
    interval_cases i <;> norm_num [qAt]
  · norm_num [initialGuess, minIndices, argminIdx, nColsOf]
  · norm_num [initialGuess, minIndices, argminIdx, nColsOf]

/-- C5 witness: the amended distinctness theorem instantiated on a `3 × 3`
association matrix with strict off-diagonal associations, `k = 3`. -/
theorem initial_guess_distinct_witness :
    ((∀ r ∈ Qwit, r.length = Qwit.length) ∧
      (∀ c, c < Qwit.length → qAt Qwit c c = 1) ∧
      (∀ c j, c < Qwit.length → j < Qwit.length → c ≠ j → qAt Qwit c j < 1) ∧
      2 ≤ 3 ∧ 3 ≤ Qwit.length) ∧
      ((initialGuess Qwit 3).Nodup ∧ (initialGuess Qwit 3).length = 3 ∧
        ∀ a b, a < Qwit.length → b < Qwit.length →
          qAt Qwit ((initialGuess Qwit 3).getD 0 0)
            ((initialGuess Qwit 3).getD 1 0) ≤ qAt Qwit a b) := by
  have hrow : ∀ r ∈ Qwit, r.length = Qwit.length := by
    intro r hr
    simp only [Qwit] at hr
    fin_cases hr <;> rfl
  have hdiag : ∀ c, c < Qwit.length → qAt Qwit c c = 1 := by
    intro c hc
    simp only [Qwit, List.length_cons, List.length_nil] at hc
    interval_cases c <;> norm_num [qAt, Qwit]
  have hoff : ∀ c j, c < Qwit.length → j < Qwit.length → c ≠ j →
      qAt Qwit c j < 1 := by
    intro c j hc hj hne
    simp only [Qwit, List.length_cons, List.length_nil] at hc hj
    interval_cases c <;> interval_cases j <;>
      first | exact absurd rfl hne | norm_num [qAt, Qwit]
  exact ⟨⟨hrow, hdiag, hoff, by omega, by decide⟩,
    initial_guess_distinct hrow hdiag hoff (by omega) (by decide)⟩

/-- C6 counterexample: with `k = 3` the loop runs `k - 2 = 1` extra round,
so three centers are returned — not the `2 + (k - 3) = 2` centers that
"`k - 3` more rounds" after the first pair would give. -/
theorem greedy_rounds_cex :
    (initialGuess Qc 3).length = 3 ∧
      (initialGuess Qc 3).length ≠ 2 + (3 - 3) := by
  have h := initialGuess_length Qc (by omega : 2 ≤ 3)
  exact ⟨h, by rw [h]; omega⟩

/-- C6 witness: the amended rounds theorem instantiated on `Qc`, `k = 3`. -/
theorem initial_guess_rounds_witness :
    (0 < Qc.length ∧ (∀ r ∈ Qc, r.length = Qc.length) ∧ 2 ≤ 3) ∧
      ((initialGuess Qc 3).length = 3 ∧
        (∀ a b, a < Qc.length → b < Qc.length →
          qAt Qc ((initialGuess Qc 3).getD 0 0)
            ((initialGuess Qc 3).getD 1 0) ≤ qAt Qc a b) ∧
        ∀ r, 2 ≤ r → r < 3 →
          ((initialGuess Qc 3).getD r 0 < nColsOf Qc ∧
            ∀ j, j < nColsOf Qc →
              colMax Qc ((initialGuess Qc 3).take r)
                  ((initialGuess Qc 3).getD r 0) ≤
                colMax Qc ((initialGuess Qc 3).take r) j)) := by
  have hrow : ∀ r ∈ Qc, r.length = Qc.length := by
    intro r hr
    simp only [Qc] at hr
    fin_cases hr <;> rfl
  exact ⟨⟨by decide, hrow, by omega⟩,
    initial_guess_rounds (by decide) hrow (by omega)⟩

/-- C7 witness: on the two-triangle mesh both distance lists are nonempty
with nonzero means, and both normalized components have mean `1`. -/
theorem normalized_distances_mean_one_witness :
    (gVals id (1/2 : ℚ) Mwit ≠ [] ∧ listMean (gVals id (1/2 : ℚ) Mwit) ≠ 0 ∧
      aVals id (1/2 : ℚ) Mwit ≠ [] ∧
      listMean (aVals id (1/2 : ℚ) Mwit) ≠ 0) ∧
      (listMean (normGeo id (1/2 : ℚ) Mwit) = 1 ∧
        listMean (normAng id (1/2 : ℚ) Mwit) = 1) := by
  have hg : gVals id (1/2 : ℚ) Mwit ≠ [] := by
    simp [gVals, entryList, adjFacesMap, addEdgeFace, entryBlock, Mwit,
      List.enum, List.enumFrom]
  have hgm : listMean (gVals id (1/2 : ℚ) Mwit) ≠ 0 := by
    norm_num [listMean, gVals, entryList, adjFacesMap, addEdgeFace,
      entryBlock, geodesicDistance, faceCenter, vertexCo, faceAt,
      Vec3.lengthWith, Vec3.dot, Vec3.add, Vec3.sub, Vec3.smul, Vec3.zero,
      List.enum, Mwit, List.enumFrom, List.foldl_cons, List.foldl_nil,
      List.flatMap_cons, List.flatMap_nil]
  have ha : aVals id (1/2 : ℚ) Mwit ≠ [] := by
    simp [aVals, entryList, adjFacesMap, addEdgeFace, entryBlock, Mwit,
      List.enum, List.enumFrom]
  have ham : listMean (aVals id (1/2 : ℚ) Mwit) ≠ 0 := by
    norm_num [listMean, aVals, entryList, adjFacesMap, addEdgeFace,
      entryBlock, geodesicDistance, angularDistance, faceCenter, vertexCo,
      faceAt, Vec3.lengthWith, Vec3.dot, Vec3.add, Vec3.sub, Vec3.smul,
      Vec3.zero, List.enum, Mwit, List.enumFrom, List.foldl_cons,
      List.foldl_nil, List.flatMap_cons, List.flatMap_nil]
  exact ⟨⟨hg, hgm, ha, ham⟩,
    normalized_distances_mean_one id (1/2 : ℚ) Mwit hg hgm ha ham⟩

/-- C8 counterexample: starting from the fresh module state
`(None, None)`, a `segment_mesh` call leaves the written coefficients
behind in the module state — persistent module-level state does survive
the call. -/
theorem global_state_persists_cex :
    (segmentMeshS id id eigWit [] (none, none) Mwit 2 ((1/2 : ℚ), (1/2 : ℚ))
      EvMethod.dense KmInit.greedy).1 ≠ ((none, none) : ModState) := by
  simp [segmentMeshS]

/-- C9 witness: the callback theorem instantiated on the two-triangle mesh
with an action present. -/
theorem callback_at_most_once_complete_witness :
    (eigWit EvMethod.dense
        (laplacian id id ((1/2 : ℚ), (1/2 : ℚ)).1 ((1/2 : ℚ), (1/2 : ℚ)).2
          Mwit) 2).length = Mwit.polygons.length ∧
      ((callbackTrace id id eigWit [] Mwit 2 ((1/2 : ℚ), (1/2 : ℚ)) true
          EvMethod.dense KmInit.greedy).length ≤ 1 ∧
        ∀ p ∈ callbackTrace id id eigWit [] Mwit 2 ((1/2 : ℚ), (1/2 : ℚ))
          true EvMethod.dense KmInit.greedy,
            p.1 = 2 ∧ p.2.length = Mwit.polygons.length) :=
  ⟨rfl, callback_at_most_once_complete id id eigWit [] Mwit 2
    ((1/2 : ℚ), (1/2 : ℚ)) true EvMethod.dense KmInit.greedy rfl⟩

/-- C10 witness: on the mesh whose faces `0` and `1` share two edges, the
sparse entry `(0, 1)` is the sum of both edges' blended weights. -/
theorem duplicate_edges_accumulate_witness :
    ((0 : Nat) ≠ 1 ∧ 2 ≤ (sharedEdges Mdup 0 1).length) ∧
      distEntry id (1/2 : ℚ) (1/2 : ℚ) Mdup 0 1 =
        ((sharedEdges Mdup 0 1).map
          (edgeWeight id (1/2 : ℚ) (1/2 : ℚ) Mdup)).sum := by
  have hlen : 2 ≤ (sharedEdges Mdup 0 1).length := by decide
  exact ⟨⟨by omega, hlen⟩,
    duplicate_edges_accumulate id (1/2 : ℚ) (1/2 : ℚ) Mdup (by omega) hlen⟩

end MeshSeg
